import Mathlib

/-!
Verification of the resilient extraction pipeline of the mr-scraper
repository.  Strings are modelled as lists of characters; JavaScript
numbers that carry confidence scores are modelled as rationals.
Each section below embeds one component of the source
(text-extractor deduplication, date parsing, confidence scoring,
record validation, the selector registry, and the pipeline
orchestrator) and proves or refutes the frozen claims about it.
-/

/-- Strings from the scraped document, modelled as lists of characters. -/
abbrev Str : Type := List Char

/-- Whitespace test used by the JavaScript `trim` model. -/
def isWs (c : Char) : Bool := c.isWhitespace

/-- Model of JavaScript `String.prototype.trim`: drop whitespace from
both ends of the character list. -/
def trimText (l : Str) : Str := (l.dropWhile isWs).rdropWhile isWs

lemma head_eq_of_isPrefix {t u : Str} (h : t <+: u) (ht : 0 < t.length) :
    ∀ htu : 0 < u.length, u.get ⟨0, htu⟩ = t.get ⟨0, ht⟩ := by
  obtain ⟨s, hs⟩ := h
  subst hs
  intro htu
  simp [List.get_eq_getElem, List.getElem_append_left ht]

lemma dropWhile_eq_self_of_trim (l : Str) :
    (trimText l).dropWhile isWs = trimText l := by
  set u := l.dropWhile isWs with hu
  have hud : u.dropWhile isWs = u := by
    rw [hu]
    exact List.dropWhile_idempotent _ _
  have hpre : u.rdropWhile isWs <+: u := by
    exact List.rdropWhile_prefix isWs u
  rw [trimText, ← hu]
  rw [List.dropWhile_eq_self_iff]
  intro hl
  have hulen : 0 < u.length := lt_of_lt_of_le hl hpre.length_le
  have hhead := head_eq_of_isPrefix hpre hl hulen
  have := List.dropWhile_eq_self_iff.mp hud hulen
  rw [hhead] at this
  exact this

/-- The `trim` model is idempotent. -/
lemma trimText_idem (l : Str) : trimText (trimText l) = trimText l := by
  have h1 := dropWhile_eq_self_of_trim l
  show ((trimText l).dropWhile isWs).rdropWhile isWs = trimText l
  rw [h1, trimText]
  exact List.rdropWhile_idempotent isWs (l.dropWhile isWs)

/-- Model of JavaScript `big.includes(small)`: substring containment. -/
def includesSub (big small : Str) : Bool :=
  small.isPrefixOf big ||
    match big with
    | [] => false
    | _ :: rest => includesSub rest small

/-- The substring-overlap test of `deduplicateTexts`
(src/unnamed/part_018): a kept fragment longer than 3 characters that
occurs inside the new fragment, or conversely. -/
def overlapsKept (existing text : Str) : Bool :=
  (decide (existing.length > 3) && includesSub text existing) ||
    (decide (text.length > 3) && includesSub existing text)

/-- One iteration of the collection loop of `deduplicateTexts`:
trim the fragment, discard it when empty, oversized, an exact
duplicate, or overlapping a kept fragment, otherwise append it. -/
def dedupStep (maxLength : Nat) (kept : List Str) (rawText : Str) : List Str :=
  let text := trimText rawText
  if text = [] ∨ maxLength < text.length ∨ text ∈ kept then kept
  else if kept.any (fun existing => overlapsKept existing text) then kept
  else kept ++ [text]

/-- `deduplicateTexts` from src/unnamed/part_018: fold the collection
step over the raw fragments starting from an empty kept list. -/
def deduplicateTexts (texts : List Str) (maxLength : Nat) : List Str :=
  texts.foldl (dedupStep maxLength) []

/-- A fragment that the collection loop would append to `kept`:
already trimmed, non-empty, within the length cap, not a duplicate
and not overlapping any kept fragment. -/
structure GoodAt (maxLength : Nat) (kept : List Str) (text : Str) : Prop where
  trimmed : trimText text = text
  nonempty : text ≠ []
  short : text.length ≤ maxLength
  notMem : text ∉ kept
  noOverlap : kept.any (fun existing => overlapsKept existing text) = false

lemma dedupStep_of_good {maxLength : Nat} {kept : List Str} {text : Str}
    (h : GoodAt maxLength kept text) :
    dedupStep maxLength kept text = kept ++ [text] := by
  rw [dedupStep]
  simp only [h.trimmed]
  rw [if_neg, if_neg]
  · rw [h.noOverlap]
    simp
  · push_neg
    exact ⟨h.nonempty, h.short, h.notMem⟩

/-- The kept lists reachable by the collection loop: every element was
`GoodAt` the prefix of elements kept before it. -/
inductive DChain (maxLength : Nat) : List Str → List Str → Prop
  | nil : ∀ acc, DChain maxLength acc []
  | cons : ∀ acc x rest, GoodAt maxLength acc x →
      DChain maxLength (acc ++ [x]) rest → DChain maxLength acc (x :: rest)

lemma DChain.replay {maxLength : Nat} {acc out : List Str}
    (h : DChain maxLength acc out) :
    out.foldl (dedupStep maxLength) acc = acc ++ out := by
  induction h with
  | nil acc => simp
  | cons acc x rest hx _ ih =>
      rw [List.foldl_cons, dedupStep_of_good hx, ih]
      simp

lemma DChain.snoc {maxLength : Nat} {acc l : List Str} {x : Str}
    (h : DChain maxLength acc l) (hx : GoodAt maxLength (acc ++ l) x) :
    DChain maxLength acc (l ++ [x]) := by
  induction h with
  | nil acc =>
      simp only [List.append_nil] at hx
      exact DChain.cons acc x [] hx (DChain.nil _)
  | cons acc y rest hy _ ih =>
      refine DChain.cons acc y (rest ++ [x]) hy (ih ?_)
      have hrw : acc ++ [y] ++ rest = acc ++ y :: rest := by simp
      rw [hrw]
      exact hx

lemma dedupStep_chain {maxLength : Nat} {acc : List Str}
    (h : DChain maxLength [] acc) (t : Str) :
    DChain maxLength [] (dedupStep maxLength acc t) := by
  rw [dedupStep]
  split
  · exact h
  · split
    · exact h
    · rename_i h1 h2
      push_neg at h1
      refine h.snoc ?_
      simp only [List.nil_append]
      exact {
        trimmed := trimText_idem t
        nonempty := h1.1
        short := h1.2.1
        notMem := h1.2.2
        noOverlap := by
          rw [Bool.eq_false_iff]
          exact h2 }

lemma foldl_dedupStep_chain (maxLength : Nat) :
    ∀ (ts : List Str) (acc : List Str), DChain maxLength [] acc →
      DChain maxLength [] (ts.foldl (dedupStep maxLength) acc)
  | [], _, h => h
  | t :: ts, acc, h =>
      foldl_dedupStep_chain maxLength ts _ (dedupStep_chain h t)

/-- C8: the fragment-overlap collapsing rule is idempotent: applying
`deduplicateTexts` to its own output (with the same maximum length)
returns that output unchanged. -/
theorem deduplicateTexts_idempotent (texts : List Str) (maxLength : Nat) :
    deduplicateTexts (deduplicateTexts texts maxLength) maxLength =
      deduplicateTexts texts maxLength := by
  have hchain : DChain maxLength [] (deduplicateTexts texts maxLength) :=
    foldl_dedupStep_chain maxLength texts [] (DChain.nil [])
  have hreplay := hchain.replay
  simpa [deduplicateTexts] using hreplay

/-! ## Date-range parsing (src/src/scrapers/person/utils.ts) -/

/-- `DATE_PATTERNS.CURRENT_KEYWORDS` from src/src/config/constants.ts. -/
def CURRENT_KEYWORDS : List Str :=
  ["Present".toList, "Current".toList, "Now".toList, "Ongoing".toList]

/-- Model of JavaScript `toLowerCase` on the keyword alphabet. -/
def lowerStr (s : Str) : Str := s.map Char.toLower

/-- The fixed `' - '` range separator. -/
def rangeSep : Str := " - ".toList

/-- The canonical end-date marker. -/
def presentStr : Str := "Present".toList

/-- The keyword-normalization loop of `parseDateRange`: replace the
end date by `Present` when it matches a current keyword exactly or
case-insensitively. -/
def normalizeCurrentKeyword (toDate : Str) : Str :=
  if CURRENT_KEYWORDS.any (fun kw =>
      decide (toDate = kw) || decide (lowerStr toDate = lowerStr kw)) then
    presentStr
  else toDate

/-- JavaScript `split(' - ')` (accumulator form): cut at every
occurrence of the three-character separator, scanning left to right. -/
def splitRangeAux : Str → Str → List Str
  | acc, ' ' :: '-' :: ' ' :: rest => acc.reverse :: splitRangeAux [] rest
  | acc, c :: rest => splitRangeAux (c :: acc) rest
  | acc, [] => [acc.reverse]

/-- JavaScript `dateRangePart.split(' - ')`. -/
def splitRange (l : Str) : List Str := splitRangeAux [] l

/-- `parts[0]` of JavaScript `dateString.split('·')`. -/
def durPart0 (l : Str) : Str := l.takeWhile (fun c => c != '·')

/-- `parts[1]` of JavaScript `dateString.split('·')`: the segment
after the first separator, `none` when the separator is absent. -/
def durPart1 (l : Str) : Option Str :=
  if l.contains '·' then
    some (((l.dropWhile (fun c => c != '·')).drop 1).takeWhile (fun c => c != '·'))
  else none

/-- Result record of `parseDateRange`; an absent (`undefined` or
`null`) field is `none`. -/
structure DateParseResult where
  fromDate : Option Str
  toDate : Option Str
  duration : Option Str
deriving DecidableEq, Repr

/-- `parseDateRange` from src/src/scrapers/person/utils.ts: split off a
trailing duration when requested, split the rest on `' - '`, normalize
current keywords in the end date, and treat a single date as both
endpoints only when no duration was requested. -/
def parseDateRange (dateString : Str) (includeDuration : Bool) : DateParseResult :=
  if dateString = [] then
    { fromDate := none, toDate := none, duration := none }
  else
    let useDur := includeDuration && dateString.contains '·'
    let dateRangePart := if useDur then trimText (durPart0 dateString) else dateString
    let duration := if useDur then (durPart1 dateString).map trimText else none
    if includesSub dateRangePart rangeSep then
      let dateParts := splitRange dateRangePart
      let fromDate := dateParts[0]?.map trimText
      let toDate :=
        match dateParts[1]?.map trimText with
        | some t => if t = [] then some t else some (normalizeCurrentKeyword t)
        | none => none
      { fromDate := fromDate, toDate := toDate, duration := duration }
    else
      let singleDate := trimText dateRangePart
      { fromDate := if singleDate = [] then none else some singleDate
        toDate :=
          if includeDuration then none
          else if singleDate = [] then none else some singleDate
        duration := duration }

lemma includesSub_iff_isSub (small : Str) :
    ∀ big : Str, includesSub big small = true ↔ small <:+: big := by
  intro big
  induction big with
  | nil =>
      rw [includesSub]
      constructor
      · intro h
        simp only [Bool.or_false] at h
        rw [ List.isPrefixOf_iff_prefix] at h
        exact h.isInfix
      · intro h
        have : small = [] := List.eq_nil_of_infix_nil h
        subst this
        decide
  | cons b rest ih =>
      rw [includesSub]
      rw [Bool.or_eq_true]
      rw [ List.isPrefixOf_iff_prefix]
      rw [ih]
      rw [List.infix_cons_iff]

lemma trimText_isInfixOf (l : Str) : trimText l <:+: l := by
  have h1 : l.dropWhile isWs <:+ l := List.dropWhile_suffix _
  have h2 : (l.dropWhile isWs).rdropWhile isWs <+: l.dropWhile isWs := by
    exact List.rdropWhile_prefix isWs (l.dropWhile isWs)
  obtain ⟨t, ht⟩ := h2
  obtain ⟨s, hs⟩ := h1
  exact ⟨s, t, by rw [List.append_assoc, trimText, ht, hs]⟩

lemma includesSub_false_of_isSub {a b : Str} (h : a <:+: b)
    (hb : includesSub b rangeSep = false) : includesSub a rangeSep = false := by
  rw [← Bool.not_eq_true] at hb ⊢
  intro hc
  apply hb
  rw [includesSub_iff_isSub] at hc ⊢
  exact hc.trans h

lemma durPart0_isInfixOf (ds : Str) : durPart0 ds <:+: ds := by
  have h : durPart0 ds <+: ds := List.takeWhile_prefix _
  obtain ⟨t, ht⟩ := h
  exact ⟨[], t, by rw [List.nil_append, ht]⟩

lemma durPart0_eq_self {ds : Str} (h : ds.contains '·' = false) :
    durPart0 ds = ds := by
  rw [durPart0]
  apply List.takeWhile_eq_self_iff.mpr
  intro c hc
  simp only [bne_iff_ne, ne_eq]
  rintro rfl
  rw [List.contains_eq_any_beq] at h
  have hmem : ds.any (fun x => '·' == x) = true :=
    List.any_eq_true.mpr ⟨'·', hc, by simp⟩
  rw [hmem] at h
  cases h

lemma trimText_nil : trimText ([] : Str) = [] := rfl

/-- The `toDate` produced by the range branch of `parseDateRange`
without duration parsing: the trimmed second part of the split,
keyword-normalized when non-empty. -/
lemma parseDateRange_range_toDate (ds endPart : Str)
    (h1 : includesSub ds rangeSep = true)
    (h2 : (splitRange ds)[1]? = some endPart) :
    (parseDateRange ds false).toDate =
      (if trimText endPart = [] then some (trimText endPart)
       else some (normalizeCurrentKeyword (trimText endPart))) := by
  have hne : ds ≠ [] := by
    rintro rfl
    exact absurd h1 (by decide)
  rw [parseDateRange, if_neg hne]
  simp only [Bool.false_and, Bool.false_eq_true, if_false]
  rw [if_pos h1]
  simp only [h2]
  rfl

/-- C6: for every configured ongoing keyword and every case variant of
it, when the end-date part of a range string is that variant,
`parseDateRange` normalizes the end date to the canonical `Present`;
an end-date part that is not case-insensitively equal to any
configured keyword is returned as-is, trimmed. -/
theorem parseDateRange_currentKeywords (ds endPart : Str)
    (h1 : includesSub ds rangeSep = true)
    (h2 : (splitRange ds)[1]? = some endPart) :
    (∀ kw ∈ CURRENT_KEYWORDS, lowerStr (trimText endPart) = lowerStr kw →
        (parseDateRange ds false).toDate = some presentStr) ∧
    ((∀ kw ∈ CURRENT_KEYWORDS, lowerStr (trimText endPart) ≠ lowerStr kw) →
        (parseDateRange ds false).toDate = some (trimText endPart)) := by
  have hbase := parseDateRange_range_toDate ds endPart h1 h2
  constructor
  · intro kw hkw hlow
    have hkwne : lowerStr kw ≠ [] := by
      have : kw ∈ CURRENT_KEYWORDS := hkw
      simp only [CURRENT_KEYWORDS, List.mem_cons, List.mem_singleton] at this
      rcases this with rfl | rfl | rfl | rfl | h
      · decide
      · decide
      · decide
      · decide
      · cases h
    have htne : trimText endPart ≠ [] := by
      intro h0
      rw [h0] at hlow
      exact hkwne (hlow.symm.trans rfl)
    rw [hbase, if_neg htne]
    rw [normalizeCurrentKeyword, if_pos]
    apply List.any_eq_true.mpr
    refine ⟨kw, hkw, ?_⟩
    simp [hlow]
  · intro hall
    by_cases htne : trimText endPart = []
    · rw [hbase, if_pos htne]
    · rw [hbase, if_neg htne]
      rw [normalizeCurrentKeyword, if_neg]
      rw [Bool.not_eq_true]
      apply List.any_eq_false.mpr
      intro kw hkw
      have hne := hall kw hkw
      simp only [Bool.or_eq_true, decide_eq_true_eq, not_or]
      constructor
      · intro heq
        exact hne (by rw [heq])
      · exact hne

/-- Witness for C6 at a concrete input: the range string
`Jan 2020 - NOW` (a case variant of the keyword `Now`) normalizes its
end date to `Present`. -/
theorem parseDateRange_currentKeywords_witness :
    (parseDateRange "Jan 2020 - NOW".toList false).toDate = some presentStr :=
  (parseDateRange_currentKeywords "Jan 2020 - NOW".toList "NOW".toList
      (by decide) (by decide)).1 "Now".toList (by decide) (by decide)

/-- C7 counterexample: the whitespace-only string consisting of one
space is non-empty and contains no `' - '` separator, yet
`parseDateRange` without duration parsing returns `fromDate = none`
instead of the trimmed single date (the empty string). -/
theorem parseDateRange_whitespace_cex :
    ([' '] : Str) ≠ [] ∧ includesSub [' '] rangeSep = false ∧
      (parseDateRange [' '] false).fromDate ≠ some (trimText [' ']) := by
  refine ⟨by decide, by decide, by decide⟩

/-- C7 amended: for every date string that contains no `' - '` range
separator, `parseDateRange` without duration parsing returns the
trimmed single date as both `fromDate` and `toDate` provided the
trimmed date is non-empty, whereas with duration parsing requested it
returns the trimmed portion before any `'·'` separator (when
non-empty) as `fromDate` only, with `toDate = none`. -/
theorem parseDateRange_single_date (ds : Str)
    (hno : includesSub ds rangeSep = false) :
    (trimText ds ≠ [] →
      parseDateRange ds false =
        { fromDate := some (trimText ds), toDate := some (trimText ds),
          duration := none }) ∧
    (trimText (durPart0 ds) ≠ [] →
      (parseDateRange ds true).fromDate = some (trimText (durPart0 ds)) ∧
      (parseDateRange ds true).toDate = none) := by
  constructor
  · intro htrim
    have hne : ds ≠ [] := by
      rintro rfl
      exact htrim trimText_nil
    rw [parseDateRange, if_neg hne]
    simp only [Bool.false_and, Bool.false_eq_true, if_false]
    rw [if_neg]
    · simp only [if_neg htrim]
    · rw [hno]
      simp
  · intro hpre
    have hds0 : durPart0 ds ≠ [] := by
      rintro h0
      rw [h0] at hpre
      exact hpre trimText_nil
    have hne : ds ≠ [] := by
      rintro rfl
      exact hds0 rfl
    rw [parseDateRange, if_neg hne]
    by_cases hdot : ds.contains '·'
    · simp only [hdot, Bool.true_and, Bool.and_self, if_true]
      have hinfix : trimText (durPart0 ds) <:+: ds :=
        (trimText_isInfixOf (durPart0 ds)).trans (durPart0_isInfixOf ds)
      have hno2 : includesSub (trimText (durPart0 ds)) rangeSep = false :=
        includesSub_false_of_isSub hinfix hno
      rw [if_neg]
      · constructor
        · simp only [trimText_idem, if_neg hpre]
        · rfl
      · rw [hno2]
        simp
    · rw [Bool.not_eq_true] at hdot
      simp only [hdot, Bool.and_false, Bool.false_eq_true, if_false]
      have hd0 : durPart0 ds = ds := durPart0_eq_self hdot
      rw [if_neg]
      · rw [hd0] at hpre
        constructor
        · simp only [hd0, if_neg hpre]
        · rfl
      · rw [hno]
        simp

/-- Witness for the amended C7 at concrete inputs: a bare year without
duration parsing fills both endpoints; a date with a trailing duration
annotation under duration parsing fills only `fromDate`. -/
theorem parseDateRange_single_date_witness :
    (parseDateRange "2020".toList false =
      { fromDate := some "2020".toList, toDate := some "2020".toList,
        duration := none }) ∧
    ((parseDateRange "Jan 2020 · 2 yrs".toList true).fromDate =
        some "Jan 2020".toList ∧
      (parseDateRange "Jan 2020 · 2 yrs".toList true).toDate = none) := by
  constructor
  · have h := (parseDateRange_single_date "2020".toList (by decide)).1 (by decide)
    rw [h]
    decide
  · have h := (parseDateRange_single_date "Jan 2020 · 2 yrs".toList
        (by decide)).2 (by decide)
    rw [h.1, h.2]
    refine ⟨?_, rfl⟩
    decide

/-! ## Text-extractor confidence scoring
(src/src/extraction/text-extractors/aria-extractor.ts and
semantic-extractor.ts) -/

/-- `ExtractedLink` from the text-extractor types. -/
structure ExtractedLink where
  url : String
  text : String
  isExternal : Bool
deriving DecidableEq, Repr

/-- One nested sub-item produced by `detectSubItems` (texts, links and
its own confidence; sub-items do not nest further). -/
structure ExtractedSubItem where
  texts : List String
  links : List ExtractedLink
  confidence : ℚ
deriving DecidableEq, Repr

/-- `ExtractedText`: ordered text fragments, links, optional sub-items
and a confidence score. -/
structure ExtractedText where
  texts : List String
  links : List ExtractedLink
  subItems : Option (List ExtractedSubItem)
  confidence : ℚ
deriving DecidableEq, Repr

namespace AriaTextExtractor

/-- `computeConfidence` from aria-extractor.ts: sequential additions
to a running score, capped at 1. -/
def computeConfidence (texts : List String) (links : List ExtractedLink)
    (subItems : List ExtractedSubItem) : ℚ :=
  let score : ℚ := 0
  let score := if texts.length ≥ 3 then score + 0.4
    else if texts.length ≥ 2 then score + 0.3
    else if texts.length ≥ 1 then score + 0.15
    else score
  let score := if links.length > 0 then score + 0.2 else score
  let score := if subItems.length > 0 then score + 0.2 else score
  let score :=
    match texts.head? with
    | some title =>
        if 2 < title.length ∧ title.length < 150 then score + 0.2 else score
    | none => score
  min score 1

/-- The record built by `AriaTextExtractor.extract` once texts, links
and sub-items have been read from the node (`null` on empty texts). -/
def mkExtraction (texts : List String) (links : List ExtractedLink)
    (subItems : List ExtractedSubItem) : Option ExtractedText :=
  if texts.length = 0 then none
  else some {
    texts := texts
    links := links
    subItems := if subItems.length > 0 then some subItems else none
    confidence := computeConfidence texts links subItems }

end AriaTextExtractor

namespace SemanticTextExtractor

/-- `computeConfidence` from semantic-extractor.ts: a base score from
the field count and nothing else. -/
def computeConfidence (texts : List String) : ℚ :=
  if texts.length ≥ 3 then 0.6
  else if texts.length ≥ 2 then 0.45
  else if texts.length ≥ 1 then 0.25
  else 0

/-- The record built by `SemanticTextExtractor.extract` once texts and
links have been read from the node (`null` on empty texts; no
sub-items). -/
def mkExtraction (texts : List String) (links : List ExtractedLink) :
    Option ExtractedText :=
  if texts.length = 0 then none
  else some {
    texts := texts
    links := links
    subItems := none
    confidence := computeConfidence texts }

end SemanticTextExtractor

/-- Modelled from the claim wording (for comparison with the code):
base score from field count, plus 0.2 for a link, 0.2 for sub-items
and 0.2 for a first field whose length lies within 3-150 characters,
capped at 1. -/
def claimedConfidence (base3 base2 base1 : ℚ) (texts : List String)
    (hasLink hasSubItems : Bool) : ℚ :=
  let base := if texts.length ≥ 3 then base3
    else if texts.length ≥ 2 then base2
    else if texts.length ≥ 1 then base1
    else 0
  let linkBonus : ℚ := if hasLink then 0.2 else 0
  let subBonus : ℚ := if hasSubItems then 0.2 else 0
  let titleBonus : ℚ :=
    match texts.head? with
    | some title => if 3 ≤ title.length ∧ title.length ≤ 150 then 0.2 else 0
    | none => 0
  min (base + linkBonus + subBonus + titleBonus) 1

/-- Modelled from the amended claim wording: as `claimedConfidence`
but with the title bonus granted for lengths 3-149 only. -/
def claimedConfidenceAmended (base3 base2 base1 : ℚ) (texts : List String)
    (hasLink hasSubItems : Bool) : ℚ :=
  let base := if texts.length ≥ 3 then base3
    else if texts.length ≥ 2 then base2
    else if texts.length ≥ 1 then base1
    else 0
  let linkBonus : ℚ := if hasLink then 0.2 else 0
  let subBonus : ℚ := if hasSubItems then 0.2 else 0
  let titleBonus : ℚ :=
    match texts.head? with
    | some title => if 3 ≤ title.length ∧ title.length ≤ 149 then 0.2 else 0
    | none => 0
  min (base + linkBonus + subBonus + titleBonus) 1

/-- A demonstration link for concrete confidence computations. -/
def demoLink : ExtractedLink :=
  { url := "https://example.com", text := "example", isExternal := true }

/-- C4 counterexample: the semantic extractor returns confidence 0.25
for one field with a link present, whereas the claimed formula
(semantic base 0.25 plus 0.2 link bonus plus 0.2 title bonus) gives
0.65: the semantic confidence carries no bonuses. -/
theorem semantic_confidence_cex :
    (SemanticTextExtractor.mkExtraction ["Hello"] [demoLink]).map
        ExtractedText.confidence = some 0.25 ∧
      claimedConfidence 0.6 0.45 0.25 ["Hello"] true false = 0.65 ∧
      (0.25 : ℚ) ≠ 0.65 := by
  have hlen : ("Hello" : String).length = 5 := rfl
  refine ⟨rfl, ?_, by norm_num⟩
  rw [claimedConfidence]
  simp only [List.length_cons, List.length_nil, List.head?_cons, hlen]
  norm_num

set_option maxHeartbeats 1000000 in
/-- C4 amended: the aria extractor's confidence equals the claimed
base-plus-bonus formula with the title bonus granted for first-field
lengths 3-149 (not 150), capped at 1; the semantic extractor's
confidence is the base score from field count alone (0.6 / 0.45 /
0.25), with no link, sub-item or title bonuses. -/
theorem computeConfidence_amended :
    (∀ (texts : List String) (links : List ExtractedLink)
        (subItems : List ExtractedSubItem),
        AriaTextExtractor.computeConfidence texts links subItems =
          claimedConfidenceAmended 0.4 0.3 0.15 texts
            (decide (links.length > 0)) (decide (subItems.length > 0))) ∧
    (∀ texts : List String,
        SemanticTextExtractor.computeConfidence texts =
          (if texts.length ≥ 3 then (0.6 : ℚ)
           else if texts.length ≥ 2 then 0.45
           else if texts.length ≥ 1 then 0.25
           else 0)) := by
  constructor
  · intro texts links subItems
    cases texts with
    | nil =>
        rw [AriaTextExtractor.computeConfidence, claimedConfidenceAmended]
        simp only [List.length_nil, List.head?_nil, decide_eq_true_eq]
        split_ifs <;> first | norm_num | omega
    | cons t ts =>
        rw [AriaTextExtractor.computeConfidence, claimedConfidenceAmended]
        simp only [List.length_cons, List.head?_cons, decide_eq_true_eq]
        split_ifs <;> first | (exfalso; omega) | norm_num
  · intro texts
    rfl

/-! ## Parser validation
(src/src/extraction/parsers/experience-parser.ts,
src/unnamed/part_009 EducationParser, src/unnamed/part_010
PatentParser) -/

/-- JavaScript truthiness of a string: non-empty. -/
def strTruthy (s : String) : Bool := !(s == "")

/-- JavaScript truthiness of an optional string field. -/
def optTruthy : Option String → Bool
  | some s => strTruthy s
  | none => false

lemma strLength_eq_zero (s : String) : s.length = 0 ↔ s = "" := by
  constructor
  · intro h
    cases s with
    | mk data =>
        cases data with
        | nil => rfl
        | cons c cs => simp [String.length] at h
  · rintro rfl
    rfl

/-- One position of an experience record, as built by the experience
interpreter. -/
structure Position where
  title : Option String
  employmentType : Option String
  fromDate : Option String
  toDate : Option String
  duration : Option String
  location : Option String
  description : Option String
  plainText : String
deriving DecidableEq, Repr

/-- An experience record: an employer with one or more positions. -/
structure Experience where
  company : Option String
  companyUrl : Option String
  plainText : String
  positions : List Position
deriving DecidableEq, Repr

/-- An education record as built by the education interpreter. -/
structure Education where
  institutionName : Option String
  degree : Option String
  linkedinUrl : Option String
  fromDate : Option String
  toDate : Option String
  description : Option String
  plainText : String
deriving DecidableEq, Repr

/-- A patent record as built by the patent interpreter. -/
structure Patent where
  title : String
  issuer : Option String
  number : Option String
  issuedDate : Option String
  url : Option String
  description : Option String
  plainText : String
deriving DecidableEq, Repr

namespace ExperienceParser

/-- `ExperienceParser.validate`: a record passes when it has at least
one position and either a company name or some signal (title, from
date, location or description) on the first position. -/
def validate (item : Experience) : Bool :=
  if item.positions.isEmpty then false
  else
    let hasPositionSignal :=
      match item.positions.head? with
      | some p => optTruthy p.title || optTruthy p.fromDate ||
          optTruthy p.location || optTruthy p.description
      | none => false
    optTruthy item.company || hasPositionSignal

end ExperienceParser

namespace EducationParser

/-- `EducationParser.validate`: a record passes when its institution
name is present and non-empty; no length ceiling is applied. -/
def validate (item : Education) : Bool :=
  match item.institutionName with
  | some s => strTruthy s && decide (s.length > 0)
  | none => false

end EducationParser

namespace PatentParser

/-- `PatentParser.validate`: a record passes when its title is
non-empty and at most 300 characters long. -/
def validate (item : Patent) : Bool :=
  strTruthy item.title && decide (item.title.length ≤ 300)

end PatentParser

/-- An institution name of 1000 characters, far above every length
ceiling appearing in the repository. -/
def longInstitutionName : String := String.mk (List.replicate 1000 'a')

/-- An education record whose institution name is absurdly long. -/
def longEducation : Education :=
  { institutionName := some longInstitutionName, degree := none,
    linkedinUrl := none, fromDate := none, toDate := none,
    description := none, plainText := "" }

/-- The single position of `titlelessExperience`: no title, only a
from date. -/
def titlelessPosition : Position :=
  { title := none, employmentType := none, fromDate := some "2020",
    toDate := none, duration := none, location := none,
    description := none, plainText := "" }

/-- An experience record with no company and no title, only a from
date on its single position. -/
def titlelessExperience : Experience :=
  { company := none, companyUrl := none, plainText := "",
    positions := [titlelessPosition] }

/-- C5 counterexample: `EducationParser.validate` accepts a record
whose institution name is 1000 characters long (no length ceiling is
enforced), and `ExperienceParser.validate` accepts a record whose
title and company are both absent (non-emptiness of the
decision-relevant field is not required). -/
theorem validate_cex :
    (EducationParser.validate longEducation = true ∧
      longInstitutionName.length = 1000) ∧
      ExperienceParser.validate titlelessExperience = true := by
  refine ⟨⟨?_, ?_⟩, by decide⟩
  · rw [EducationParser.validate]
    have h1 : (longInstitutionName == "") = false := by
      rw [beq_eq_false_iff_ne]
      intro h
      have h2 : (List.replicate 1000 'a').length = ("" : String).length :=
        congrArg String.length h
      rw [List.length_replicate] at h2
      exact absurd h2 (by decide)
    have h2 : longInstitutionName.length = 1000 :=
      List.length_replicate 1000 'a'
    simp only [longEducation, strTruthy, h1, h2]
    decide
  · exact List.length_replicate 1000 'a'

/-- C5 amended: the validation contract differs per parser. The patent
validator requires a non-empty title of at most 300 characters; the
education validator requires only a present, non-empty institution
name with no length ceiling; the experience validator requires at
least one position together with a non-empty company or some signal
(title, from date, location or description) on the first position. -/
theorem validate_characterization :
    (∀ item : Patent, PatentParser.validate item = true ↔
        item.title ≠ "" ∧ item.title.length ≤ 300) ∧
    (∀ item : Education, EducationParser.validate item = true ↔
        ∃ s, item.institutionName = some s ∧ s ≠ "") ∧
    (∀ item : Experience, ExperienceParser.validate item = true ↔
        item.positions ≠ [] ∧
          (optTruthy item.company = true ∨
            ∃ p, item.positions.head? = some p ∧
              (optTruthy p.title || optTruthy p.fromDate ||
                optTruthy p.location || optTruthy p.description) = true)) := by
  refine ⟨?_, ?_, ?_⟩
  · intro item
    rw [PatentParser.validate]
    simp only [strTruthy, Bool.and_eq_true, Bool.not_eq_true',
      beq_eq_false_iff_ne, decide_eq_true_eq, ne_eq]
  · intro item
    rw [EducationParser.validate]
    cases item.institutionName with
    | none => simp
    | some s =>
        simp only [strTruthy, Bool.and_eq_true, Bool.not_eq_true',
          beq_eq_false_iff_ne, decide_eq_true_eq, Option.some_inj, ne_eq]
        constructor
        · rintro ⟨h1, _⟩
          exact ⟨s, rfl, h1⟩
        · rintro ⟨t, htEq, ht⟩
          cases htEq
          refine ⟨ht, ?_⟩
          rcases Nat.eq_zero_or_pos s.length with h0 | hpos
          · exact absurd ((strLength_eq_zero s).mp h0) ht
          · exact hpos
  · intro item
    rw [ExperienceParser.validate]
    cases hps : item.positions with
    | nil => simp [hps]
    | cons p ps =>
        simp only [hps, List.isEmpty_cons, List.head?_cons, if_false,
          Bool.or_eq_true, ne_eq, reduceCtorEq, not_false_iff, true_and,
          Option.some_inj, Bool.false_eq_true]
        constructor
        · rintro (h | h)
          · exact Or.inl h
          · exact Or.inr ⟨p, rfl, h⟩
        · rintro (h | ⟨q, rfl, hq⟩)
          · exact Or.inl h
          · exact Or.inr hq

/-- A small patent record used by the validation witness. -/
def demoPatent : Patent :=
  { title := "US 1234", issuer := none, number := none,
    issuedDate := none, url := none, description := none,
    plainText := "" }

/-- Witness for the amended C5 characterization at concrete records:
a short-titled patent passes, the 1000-character education still
passes, and the titleless experience passes via its from-date
signal. -/
theorem validate_characterization_witness :
    PatentParser.validate demoPatent = true ∧
    EducationParser.validate longEducation = true ∧
    ExperienceParser.validate titlelessExperience = true := by
  refine ⟨?_, ?_, ?_⟩
  · exact (validate_characterization.1 _).mpr ⟨by decide, by decide⟩
  · refine (validate_characterization.2.1 _).mpr ⟨longInstitutionName, rfl, ?_⟩
    intro h
    have h2 : (List.replicate 1000 'a').length = ("" : String).length :=
      congrArg String.length h
    rw [List.length_replicate] at h2
    exact absurd h2 (by decide)
  · exact (validate_characterization.2.2 _).mpr
      ⟨by decide, Or.inr ⟨titlelessPosition, rfl, by decide⟩⟩

/-! ## Selector registry (src/src/extraction/registry.ts) -/

/-- Selector set for one section. -/
structure SectionSelectorSet where
  itemSelectors : List String
  containerSelectors : Option (List String)
deriving DecidableEq, Repr

/-- A versioned table of per-section selector sets. -/
structure SelectorVersion where
  version : String
  updatedAt : String
  sections : List (String × SectionSelectorSet)
deriving DecidableEq, Repr

/-- The built-in default selector version seeded at startup. -/
def DEFAULT_VERSION : SelectorVersion :=
  { version := "v1"
    updatedAt := "1970-01-01T00:00:00.000Z"
    sections := [
      ("experience",
        { itemSelectors := [
            ".pvs-list__paged-list-item",
            "li.artdeco-list__item",
            "div[data-view-name=\"profile-component-entity\"]",
            "[componentkey^=\"entity-collection-item\"]",
            "main ul > li",
            "main ol > li"]
          containerSelectors := some ["main"] }),
      ("accomplishment",
        { itemSelectors := [
            ".pvs-list__paged-list-item",
            "li.artdeco-list__item",
            "div[data-view-name=\"profile-component-entity\"]",
            "main ul > li",
            "main ol > li"]
          containerSelectors := some ["main"] })] }

/-- The registry state: an insertion-ordered map of versions plus the
id of the active version. -/
structure SelectorRegistry where
  versions : List (String × SelectorVersion)
  activeVersion : String
deriving DecidableEq, Repr

/-- The registry as constructed at startup, holding only the default
version. -/
def initialRegistry : SelectorRegistry :=
  { versions := [(DEFAULT_VERSION.version, DEFAULT_VERSION)]
    activeVersion := DEFAULT_VERSION.version }

/-- JavaScript `Map.set`: replace in place when the key exists,
append otherwise. -/
def upsertVersion : List (String × SelectorVersion) → String →
    SelectorVersion → List (String × SelectorVersion)
  | [], key, v => [(key, v)]
  | (k, old) :: rest, key, v =>
      if k = key then (k, v) :: rest
      else (k, old) :: upsertVersion rest key v

namespace SelectorRegistry

/-- `getActiveVersion`: the version stored under the active id,
falling back to the default. -/
def getActiveVersion (r : SelectorRegistry) : SelectorVersion :=
  (r.versions.lookup r.activeVersion).getD DEFAULT_VERSION

/-- `getSection`: the active version's selector set for a section. -/
def getSection (r : SelectorRegistry) (sectionName : String) :
    Option SectionSelectorSet :=
  r.getActiveVersion.sections.lookup sectionName

/-- `setActiveVersion`: switch the active id, refusing unknown ids.
Returns the boolean result together with the updated state. -/
def setActiveVersion (r : SelectorRegistry) (version : String) :
    Bool × SelectorRegistry :=
  if (r.versions.lookup version).isSome then
    (true, { r with activeVersion := version })
  else (false, r)

/-- `register`: upsert a version under its own id. -/
def register (r : SelectorRegistry) (v : SelectorVersion) :
    SelectorRegistry :=
  { r with versions := upsertVersion r.versions v.version v }

end SelectorRegistry

/-- C9: `setActiveVersion` returns `false` and leaves the whole
registry state (active version and registered versions) unchanged
when the id is unknown; for a registered id it returns `true` and
`getActiveVersion` subsequently returns the version stored under that
id, with the version table unchanged. -/
theorem setActiveVersion_spec (r : SelectorRegistry) (id : String) :
    (r.versions.lookup id = none →
      r.setActiveVersion id = (false, r)) ∧
    (∀ ver, r.versions.lookup id = some ver →
      (r.setActiveVersion id).1 = true ∧
        (r.setActiveVersion id).2.getActiveVersion = ver ∧
        (r.setActiveVersion id).2.versions = r.versions) := by
  constructor
  · intro hnone
    rw [SelectorRegistry.setActiveVersion, hnone]
    simp
  · intro ver hsome
    rw [SelectorRegistry.setActiveVersion, hsome]
    refine ⟨rfl, ?_, rfl⟩
    rw [SelectorRegistry.getActiveVersion]
    show (r.versions.lookup id).getD DEFAULT_VERSION = ver
    rw [hsome]
    rfl

/-- A selector version as a self-heal provider might produce it. -/
def healedVersion : SelectorVersion :=
  { version := "v2", updatedAt := "2025-06-01T00:00:00.000Z",
    sections := [] }

/-- Witness for C9 at concrete states: switching the seeded registry
to the unknown id `v2` fails and changes nothing; after registering a
`v2` version the switch succeeds and `getActiveVersion` returns it. -/
theorem setActiveVersion_spec_witness :
    initialRegistry.setActiveVersion "v2" = (false, initialRegistry) ∧
      ((initialRegistry.register healedVersion).setActiveVersion "v2").1 =
        true ∧
      ((initialRegistry.register healedVersion).setActiveVersion
          "v2").2.getActiveVersion = healedVersion := by
  have h1 := (setActiveVersion_spec initialRegistry "v2").1 (by decide)
  have h2 := (setActiveVersion_spec (initialRegistry.register healedVersion)
      "v2").2 healedVersion (by decide)
  exact ⟨h1, h2.1, h2.2.1⟩

/-! ## Pipeline orchestrator (src/src/extraction/pipeline.ts)

The document layer is abstracted: a text extractor's behaviour on one
candidate node is an outcome (its `canHandle` may throw or refuse,
its `extract` may throw, return null, or return an extraction), the
page extractor's behaviour is an `Except` value, and the parser's
`parse`/`validate` are `Except`-valued functions, so that an
exception anywhere is an explicit `Except.error`. -/

/-- Section context handed to parsers (`Record<string, string>`). -/
abbrev Ctx : Type := List (String × String)

/-- Behaviour of one text extractor on one candidate node. -/
inductive ExtractorOutcome where
  | throwCanHandle
  | cannotHandle
  | throwExtract
  | extractNone
  | extractSome (e : ExtractedText)

/-- A text extractor: name, priority and per-node behaviour. -/
structure TextExtractor (Node : Type) where
  name : String
  priority : Int
  run : Node → ExtractorOutcome

/-- An anchor of a raw pre-segmented block. -/
structure RawAnchor where
  href : Option String
  text : Option String

/-- A raw pre-segmented block (`RawSection`). -/
structure RawSection where
  heading : String
  text : String
  labels : List String
  anchors : List RawAnchor

/-- A sub-item of a `ParseInput`. -/
structure SubParseInput where
  texts : List String
  links : List ExtractedLink
  context : Ctx

/-- Input to a parser's `parse`. -/
structure ParseInput where
  texts : List String
  links : List ExtractedLink
  subItems : Option (List SubParseInput)
  context : Ctx

/-- A parser: `parse` and `validate` may throw; `parseRaw` is present
only for raw-capable parsers. -/
structure DomainParser (T : Type) where
  parse : ParseInput → Except Unit (Option T)
  validate : T → Except Unit Bool
  parseRaw : Option (List RawSection → Except Unit (List T))

/-- Result of the page/section extractor. -/
inductive PageResult (Node : Type) where
  | list (items : List (Node × Ctx))
  | single (element : Node) (context : Ctx)
  | raw (data : List RawSection)

/-- The pipeline configuration together with the behaviour of its
collaborators on the current section run. -/
structure PipelineConfig (Node T : Type) where
  sectionName : String
  pageExtract : Except Unit (PageResult Node)
  textExtractors : List (TextExtractor Node)
  parser : DomainParser T
  confidenceThreshold : Option ℚ
  deduplicateKey : Option (T → String)
  captureHtmlOnFailure : Bool
  mainHtml : String

/-- `PipelineDiagnostics`. -/
structure PipelineDiagnostics where
  sectionName : String
  textExtractorsAttempted : List String
  textExtractorUsed : Option String
  itemsFound : Nat
  itemsParsed : Nat
  itemsFailed : Nat
  avgConfidence : ℚ
  durationMs : Nat
  capturedHtml : Option String

/-- The fresh diagnostics record created at the start of `extract`. -/
def initDiagnostics (sectionName : String) : PipelineDiagnostics :=
  { sectionName := sectionName
    textExtractorsAttempted := []
    textExtractorUsed := none
    itemsFound := 0
    itemsParsed := 0
    itemsFailed := 0
    avgConfidence := 0
    durationMs := 0
    capturedHtml := none }

/-- `PipelineResult`. -/
structure PipelineResult (T : Type) where
  items : List T
  diagnostics : PipelineDiagnostics

/-- `addAttempt`: record an extractor name once. -/
def addAttempt (attempts : List String) (name : String) : List String :=
  if name ∈ attempts then attempts else attempts ++ [name]

/-- The `bestBelowThreshold` update: keep the strictly higher
confidence, ties keep the earlier extraction. -/
def bestUpdate (best : Option ExtractedText) (e : ExtractedText) :
    Option ExtractedText :=
  match best with
  | none => some e
  | some b => if b.confidence < e.confidence then some e else some b

/-- Everything observable about one `extractText` call: the returned
extraction, the updated diagnostics fields, and which extractors had
`canHandle` respectively `extract` invoked. -/
structure ExtractTextResult (Node : Type) where
  result : Option ExtractedText
  attempted : List String
  used : Option String
  canHandleCalled : List (TextExtractor Node)
  extractCalled : List (TextExtractor Node)

/-- The loop of `ExtractionPipeline.extractText`: try extractors in
list order; a throw anywhere in an extractor's `canHandle`/`extract`
is caught and treated as that extractor producing nothing; return at
the first extraction with non-empty texts meeting the threshold, else
fall back to the best extraction seen. -/
def extractTextGo {Node : Type} (threshold : ℚ) (node : Node) :
    List (TextExtractor Node) → List String → Option String →
    List (TextExtractor Node) → List (TextExtractor Node) →
    Option ExtractedText → ExtractTextResult Node
  | [], attempted, used, chc, exc, best =>
      match best with
      | some b =>
          { result := some b, attempted := attempted,
            used := some (used.getD "low-confidence-fallback"),
            canHandleCalled := chc, extractCalled := exc }
      | none =>
          { result := none, attempted := attempted, used := used,
            canHandleCalled := chc, extractCalled := exc }
  | x :: rest, attempted, used, chc, exc, best =>
      match x.run node with
      | .throwCanHandle =>
          extractTextGo threshold node rest (addAttempt attempted x.name)
            used (chc ++ [x]) exc best
      | .cannotHandle =>
          extractTextGo threshold node rest (addAttempt attempted x.name)
            used (chc ++ [x]) exc best
      | .throwExtract =>
          extractTextGo threshold node rest (addAttempt attempted x.name)
            used (chc ++ [x]) (exc ++ [x]) best
      | .extractNone =>
          extractTextGo threshold node rest (addAttempt attempted x.name)
            used (chc ++ [x]) (exc ++ [x]) best
      | .extractSome e =>
          if e.texts = [] then
            extractTextGo threshold node rest (addAttempt attempted x.name)
              used (chc ++ [x]) (exc ++ [x]) best
          else if threshold ≤ e.confidence then
            { result := some e,
              attempted := addAttempt attempted x.name,
              used := some (used.getD x.name),
              canHandleCalled := chc ++ [x], extractCalled := exc ++ [x] }
          else
            extractTextGo threshold node rest (addAttempt attempted x.name)
              used (chc ++ [x]) (exc ++ [x]) (bestUpdate best e)

namespace ExtractionPipeline

/-- `ExtractionPipeline.extractText`: resolve the configured threshold
(default 0.5) and run the extractor loop with empty instrumentation. -/
def extractText {Node : Type} (extractors : List (TextExtractor Node))
    (confidenceThreshold : Option ℚ) (node : Node)
    (attempted : List String) (used : Option String) :
    ExtractTextResult Node :=
  extractTextGo (confidenceThreshold.getD 0.5) node extractors
    attempted used [] [] none

end ExtractionPipeline

/-- The extraction an extractor would deliver to the loop body on a
node: its `extract` result when `canHandle` passed, the result is
non-null and its texts are non-empty. -/
def produces {Node : Type} (node : Node) (x : TextExtractor Node) :
    Option ExtractedText :=
  match x.run node with
  | .extractSome e => if e.texts = [] then none else some e
  | _ => none

/-- Whether an extractor delivers an extraction meeting the
threshold on this node. -/
def meetsThreshold {Node : Type} (threshold : ℚ) (node : Node)
    (x : TextExtractor Node) : Bool :=
  match produces node x with
  | some e => decide (threshold ≤ e.confidence)
  | none => false

/-- `deduplicateItems` (src/src/scrapers/person/common-patterns.ts):
keep the first occurrence of each key. -/
def deduplicateItemsGo {T : Type} (key : T → String) :
    List String → List T → List T
  | _, [] => []
  | seen, x :: xs =>
      if key x ∈ seen then deduplicateItemsGo key seen xs
      else x :: deduplicateItemsGo key (key x :: seen) xs

/-- `deduplicateItems`: filter with a seen-key set. -/
def deduplicateItems {T : Type} (items : List T) (key : T → String) :
    List T :=
  deduplicateItemsGo key [] items

lemma deduplicateItemsGo_length_le {T : Type} (key : T → String) :
    ∀ (items : List T) (seen : List String),
      (deduplicateItemsGo key seen items).length ≤ items.length
  | [], _ => Nat.le_refl 0
  | x :: xs, seen => by
      rw [deduplicateItemsGo]
      split
      · exact Nat.le_succ_of_le (deduplicateItemsGo_length_le key xs seen)
      · simpa using deduplicateItemsGo_length_le key xs (key x :: seen)

lemma deduplicateItems_length_le {T : Type} (items : List T)
    (key : T → String) :
    (deduplicateItems items key).length ≤ items.length :=
  deduplicateItemsGo_length_le key items []

/-- `ParseInput` built per list item. -/
def mkParseInput (extracted : ExtractedText) (context : Ctx) : ParseInput :=
  { texts := extracted.texts
    links := extracted.links
    subItems := extracted.subItems.map (fun subs => subs.map (fun s =>
      ({ texts := s.texts, links := s.links,
         context := context } : SubParseInput)))
    context := context }

namespace ExtractionPipeline

/-- The per-candidate loop of `handleList`: extract text, parse,
validate; a null extraction or a rejected parse counts the item as
failed; parse and validate throws propagate. -/
def handleListGo {Node T : Type} (cfg : PipelineConfig Node T) :
    List (Node × Ctx) → PipelineDiagnostics →
    Except Unit (List T × ℚ × PipelineDiagnostics)
  | [], diag => .ok ([], 0, diag)
  | (node, context) :: rest, diag =>
      let r := extractText cfg.textExtractors cfg.confidenceThreshold node
        diag.textExtractorsAttempted diag.textExtractorUsed
      let diag1 := { diag with
        textExtractorsAttempted := r.attempted
        textExtractorUsed := r.used }
      match r.result with
      | none =>
          handleListGo cfg rest
            { diag1 with itemsFailed := diag1.itemsFailed + 1 }
      | some extracted =>
          match cfg.parser.parse (mkParseInput extracted context) with
          | .error err => .error err
          | .ok (some item) =>
              (match cfg.parser.validate item with
                | .error err => .error err
                | .ok true =>
                    (match handleListGo cfg rest
                        { diag1 with itemsParsed := diag1.itemsParsed + 1 } with
                      | .error err => .error err
                      | .ok (items, tc, diag2) =>
                          .ok (item :: items,
                            extracted.confidence + tc, diag2))
                | .ok false =>
                    handleListGo cfg rest
                      { diag1 with itemsFailed := diag1.itemsFailed + 1 })
          | .ok none =>
              handleListGo cfg rest
                { diag1 with itemsFailed := diag1.itemsFailed + 1 }

/-- `handleList`: record the candidate count, then run the loop. -/
def handleList {Node T : Type} (cfg : PipelineConfig Node T)
    (taggedLocators : List (Node × Ctx)) (diag : PipelineDiagnostics) :
    Except Unit (List T × ℚ × PipelineDiagnostics) :=
  handleListGo cfg taggedLocators
    { diag with itemsFound := taggedLocators.length }

/-- `handleSingle`: one candidate; a null extraction or a rejected
parse yields no items; parse and validate throws propagate. -/
def handleSingle {Node T : Type} (cfg : PipelineConfig Node T)
    (element : Node) (context : Ctx) (diag : PipelineDiagnostics) :
    Except Unit (List T × ℚ × PipelineDiagnostics) :=
  let diag0 := { diag with itemsFound := 1 }
  let r := extractText cfg.textExtractors cfg.confidenceThreshold element
    diag0.textExtractorsAttempted diag0.textExtractorUsed
  let diag1 := { diag0 with
    textExtractorsAttempted := r.attempted
    textExtractorUsed := r.used }
  match r.result with
  | none => .ok ([], 0, { diag1 with itemsFailed := 1 })
  | some extracted =>
      match cfg.parser.parse
          { texts := extracted.texts, links := extracted.links,
            subItems := none, context := context } with
      | .error err => .error err
      | .ok (some item) =>
          (match cfg.parser.validate item with
            | .error err => .error err
            | .ok true =>
                .ok ([item], extracted.confidence,
                  { diag1 with itemsParsed := 1 })
            | .ok false => .ok ([], 0, { diag1 with itemsFailed := 1 }))
      | .ok none => .ok ([], 0, { diag1 with itemsFailed := 1 })

/-- The degraded per-block loop of `handleRaw` for parsers without
`parseRaw`: synthesize a generic `ParseInput` per block. -/
def handleRawGo {Node T : Type} (cfg : PipelineConfig Node T) :
    List RawSection → PipelineDiagnostics →
    Except Unit (List T × PipelineDiagnostics)
  | [], diag => .ok ([], diag)
  | sec :: rest, diag =>
      match cfg.parser.parse
          { texts := [sec.heading, sec.text]
            links := (sec.anchors.filter (fun a => optTruthy a.href)).map
              (fun a => { url := a.href.getD "", text := a.text.getD "",
                          isExternal := true })
            subItems := none
            context := [("heading", sec.heading)] } with
      | .error err => .error err
      | .ok (some item) =>
          (match cfg.parser.validate item with
            | .error err => .error err
            | .ok true =>
                (match handleRawGo cfg rest
                    { diag with itemsParsed := diag.itemsParsed + 1 } with
                  | .error err => .error err
                  | .ok (items, diag2) => .ok (item :: items, diag2))
            | .ok false =>
                handleRawGo cfg rest
                  { diag with itemsFailed := diag.itemsFailed + 1 })
      | .ok none =>
          handleRawGo cfg rest
            { diag with itemsFailed := diag.itemsFailed + 1 }

/-- `handleRaw`: delegate to `parseRaw` when the parser supports it,
otherwise run the degraded per-block loop. -/
def handleRaw {Node T : Type} (cfg : PipelineConfig Node T)
    (data : List RawSection) (diag : PipelineDiagnostics) :
    Except Unit (List T × PipelineDiagnostics) :=
  let diag0 := { diag with itemsFound := data.length }
  match cfg.parser.parseRaw with
  | some praw =>
      (match praw data with
        | .error err => .error err
        | .ok items =>
            .ok (items, { diag0 with
              itemsParsed := items.length
              itemsFailed := data.length - items.length }))
  | none => handleRawGo cfg data diag0

/-- The kind branch of `ExtractionPipeline.extract`. -/
def handleKind {Node T : Type} (cfg : PipelineConfig Node T)
    (pageResult : PageResult Node) :
    Except Unit (List T × ℚ × PipelineDiagnostics) :=
  match pageResult with
  | .list items => handleList cfg items (initDiagnostics cfg.sectionName)
  | .single element context =>
      handleSingle cfg element context (initDiagnostics cfg.sectionName)
  | .raw data =>
      (match handleRaw cfg data (initDiagnostics cfg.sectionName) with
        | .error err => .error err
        | .ok (items, diag) => .ok (items, (0 : ℚ), diag))

/-- `ExtractionPipeline.extract` continued: deduplication, average
confidence and best-effort capture after the kind branch. -/
def finishRun {Node T : Type} (cfg : PipelineConfig Node T)
    (items0 : List T) (totalConfidence : ℚ)
    (diag1 : PipelineDiagnostics) : PipelineResult T :=
  let items := match cfg.deduplicateKey with
    | some key => deduplicateItems items0 key
    | none => items0
  let diag2 := if items.length > 0 then
      { diag1 with avgConfidence := totalConfidence / (items.length : ℚ) }
    else diag1
  let diag3 := if cfg.captureHtmlOnFailure ∧ items.length = 0 then
      { diag2 with capturedHtml := some (cfg.mainHtml.take 8000) }
    else diag2
  { items := items, diagnostics := diag3 }

/-- `ExtractionPipeline.extract` proper: page extraction, kind branch,
then the finishing steps; page-extractor and parser throws
propagate. -/
def extract {Node T : Type} (cfg : PipelineConfig Node T) :
    Except Unit (PipelineResult T) :=
  match cfg.pageExtract with
  | .error err => .error err
  | .ok pageResult =>
      match handleKind cfg pageResult with
      | .error err => .error err
      | .ok (items0, totalConfidence, diag1) =>
          .ok (finishRun cfg items0 totalConfidence diag1)

end ExtractionPipeline

lemma produces_eq_some {Node : Type} {node : Node}
    {x : TextExtractor Node} {e : ExtractedText}
    (h : produces node x = some e) :
    x.run node = .extractSome e ∧ e.texts ≠ [] := by
  rw [produces] at h
  cases hr : x.run node with
  | extractSome e2 =>
      rw [hr] at h
      change (if e2.texts = [] then none else some e2) = some e at h
      by_cases ht : e2.texts = []
      · rw [if_pos ht] at h
        cases h
      · rw [if_neg ht] at h
        cases h
        exact ⟨rfl, ht⟩
  | throwCanHandle =>
      rw [hr] at h
      change (none : Option ExtractedText) = some e at h
      cases h
  | cannotHandle =>
      rw [hr] at h
      change (none : Option ExtractedText) = some e at h
      cases h
  | throwExtract =>
      rw [hr] at h
      change (none : Option ExtractedText) = some e at h
      cases h
  | extractNone =>
      rw [hr] at h
      change (none : Option ExtractedText) = some e at h
      cases h

lemma extractTextGo_first_pass {Node : Type} (threshold : ℚ) (node : Node)
    {x : TextExtractor Node} {e : ExtractedText}
    (hprod : produces node x = some e)
    (hconf : threshold ≤ e.confidence) :
    ∀ (l₁ l₂ : List (TextExtractor Node)) (attempted : List String)
      (used : Option String) (chc exc : List (TextExtractor Node))
      (best : Option ExtractedText),
      (∀ y ∈ l₁, meetsThreshold threshold node y = false) →
      (extractTextGo threshold node (l₁ ++ x :: l₂) attempted used chc exc
          best).result = some e ∧
        (extractTextGo threshold node (l₁ ++ x :: l₂) attempted used chc exc
            best).canHandleCalled = chc ++ l₁ ++ [x] ∧
        (∀ y ∈ (extractTextGo threshold node (l₁ ++ x :: l₂) attempted used
            chc exc best).extractCalled, y ∈ exc ∨ y ∈ l₁ ∨ y = x)
  | [], l₂, attempted, used, chc, exc, best, _ => by
      obtain ⟨hrun, htexts⟩ := produces_eq_some hprod
      rw [List.nil_append]
      rw [extractTextGo]
      rw [hrun]
      simp only [if_neg htexts, if_pos hconf]
      refine ⟨by simp, by simp, ?_⟩
      intro y hy
      rw [List.mem_append] at hy
      rcases hy with hy | hy
      · exact Or.inl hy
      · right; right
        simpa using hy
  | z :: l₁, l₂, attempted, used, chc, exc, best, hpre => by
      have hz : meetsThreshold threshold node z = false :=
        hpre z (List.mem_cons_self z l₁)
      have hpre1 : ∀ y ∈ l₁, meetsThreshold threshold node y = false :=
        fun y hy => hpre y (List.mem_cons_of_mem z hy)
      have hassoc : ∀ (w : TextExtractor Node),
          chc ++ [w] ++ l₁ ++ [x] = chc ++ (w :: l₁) ++ [x] := by
        intro w
        simp
      have hweak : ∀ (y : TextExtractor Node), y ∈ exc ∨ y ∈ l₁ ∨ y = x →
          y ∈ exc ∨ y ∈ z :: l₁ ∨ y = x := by
        intro y hy
        rcases hy with h | h | h
        · exact Or.inl h
        · exact Or.inr (Or.inl (List.mem_cons_of_mem z h))
        · exact Or.inr (Or.inr h)
      have hexc : ∀ (w : TextExtractor Node)
          (y : TextExtractor Node), y ∈ exc ++ [w] ∨ y ∈ l₁ ∨ y = x →
          y ∈ exc ∨ y ∈ w :: l₁ ∨ y = x := by
        intro w y hy
        rcases hy with hy | hy | hy
        · rw [List.mem_append] at hy
          rcases hy with hy | hy
          · exact Or.inl hy
          · right; left
            simp only [List.mem_singleton] at hy
            rw [hy]
            exact List.mem_cons_self w l₁
        · exact Or.inr (Or.inl (List.mem_cons_of_mem w hy))
        · exact Or.inr (Or.inr hy)
      rw [List.cons_append]
      rw [extractTextGo]
      cases hr : z.run node with
      | throwCanHandle =>
          have ih := extractTextGo_first_pass threshold node hprod hconf l₁
            l₂ (addAttempt attempted z.name) used (chc ++ [z]) exc best hpre1
          exact ⟨ih.1, by rw [ih.2.1, hassoc],
            fun y hy => hweak y (ih.2.2 y hy)⟩
      | cannotHandle =>
          have ih := extractTextGo_first_pass threshold node hprod hconf l₁
            l₂ (addAttempt attempted z.name) used (chc ++ [z]) exc best hpre1
          exact ⟨ih.1, by rw [ih.2.1, hassoc],
            fun y hy => hweak y (ih.2.2 y hy)⟩
      | throwExtract =>
          have ih := extractTextGo_first_pass threshold node hprod hconf l₁
            l₂ (addAttempt attempted z.name) used (chc ++ [z]) (exc ++ [z])
            best hpre1
          exact ⟨ih.1, by rw [ih.2.1, hassoc],
            fun y hy => hexc z y (ih.2.2 y hy)⟩
      | extractNone =>
          have ih := extractTextGo_first_pass threshold node hprod hconf l₁
            l₂ (addAttempt attempted z.name) used (chc ++ [z]) (exc ++ [z])
            best hpre1
          exact ⟨ih.1, by rw [ih.2.1, hassoc],
            fun y hy => hexc z y (ih.2.2 y hy)⟩
      | extractSome e2 =>
          by_cases ht : e2.texts = []
          · simp only [if_pos ht]
            have ih := extractTextGo_first_pass threshold node hprod hconf l₁
              l₂ (addAttempt attempted z.name) used (chc ++ [z]) (exc ++ [z])
              best hpre1
            exact ⟨ih.1, by rw [ih.2.1, hassoc],
              fun y hy => hexc z y (ih.2.2 y hy)⟩
          · have hlt : ¬ threshold ≤ e2.confidence := by
              intro hle
              rw [meetsThreshold, produces, hr] at hz
              simp only [if_neg ht, decide_eq_false_iff_not] at hz
              exact hz hle
            simp only [if_neg ht, if_neg hlt]
            have ih := extractTextGo_first_pass threshold node hprod hconf l₁
              l₂ (addAttempt attempted z.name) used (chc ++ [z]) (exc ++ [z])
              (bestUpdate best e2) hpre1
            exact ⟨ih.1, by rw [ih.2.1, hassoc],
              fun y hy => hexc z y (ih.2.2 y hy)⟩

/-- C1: when the extractor list is in ascending priority order and the
first extractor that delivers an extraction with non-empty texts
meeting the (default 0.5) threshold is `x`, `extractText` returns that
extraction unchanged, and every extractor whose `canHandle` or
`extract` was invoked has priority at most `x.priority` - no extractor
with a larger priority value is ever invoked for that node. -/
theorem pipeline_strategy_precedence {Node : Type}
    (extractors : List (TextExtractor Node)) (thresholdOpt : Option ℚ)
    (node : Node) (attempted0 : List String) (used0 : Option String)
    (hsorted : extractors.Pairwise (fun a b => a.priority ≤ b.priority))
    (l₁ : List (TextExtractor Node)) (x : TextExtractor Node)
    (l₂ : List (TextExtractor Node)) (hsplit : extractors = l₁ ++ x :: l₂)
    (hpre : ∀ y ∈ l₁, meetsThreshold (thresholdOpt.getD 0.5) node y = false)
    (e : ExtractedText) (hprod : produces node x = some e)
    (hconf : thresholdOpt.getD 0.5 ≤ e.confidence) :
    (ExtractionPipeline.extractText extractors thresholdOpt node attempted0
        used0).result = some e ∧
      (∀ y : TextExtractor Node,
        (y ∈ (ExtractionPipeline.extractText extractors thresholdOpt node
            attempted0 used0).canHandleCalled ∨
          y ∈ (ExtractionPipeline.extractText extractors thresholdOpt node
            attempted0 used0).extractCalled) →
        ¬ x.priority < y.priority) := by
  subst hsplit
  have h := extractTextGo_first_pass (thresholdOpt.getD 0.5) node hprod
    hconf l₁ l₂ attempted0 used0 [] [] none hpre
  have hple : ∀ y ∈ l₁, y.priority ≤ x.priority := by
    rw [List.pairwise_append] at hsorted
    intro y hy1
    exact hsorted.2.2 y hy1 x (List.mem_cons_self x l₂)
  refine ⟨h.1, ?_⟩
  intro y hy
  rcases hy with hy | hy
  · rw [ExtractionPipeline.extractText] at hy
    rw [h.2.1] at hy
    simp only [List.nil_append, List.mem_append,
      List.mem_singleton] at hy
    rcases hy with hy | hy
    · exact not_lt.mpr (hple y hy)
    · subst hy
      exact lt_irrefl y.priority
  · rw [ExtractionPipeline.extractText] at hy
    rcases h.2.2 y hy with h0 | h0 | h0
    · exact absurd h0 (List.not_mem_nil y)
    · exact not_lt.mpr (hple y h0)
    · subst h0
      exact lt_irrefl _

/-- A strong extraction delivered by the highest-priority extractor in
the demonstrations below. -/
def demoExtraction : ExtractedText :=
  { texts := ["Acme Corp", "Senior Engineer"], links := [],
    subItems := none, confidence := 0.8 }

/-- A weak extraction used by lower-priority demonstration
extractors. -/
def weakExtraction : ExtractedText :=
  { texts := ["Acme Corp"], links := [], subItems := none,
    confidence := 0.25 }

/-- A priority-0 extractor that always delivers `demoExtraction`. -/
def passingExtractor : TextExtractor Unit :=
  { name := "aria", priority := 0, run := fun _ => .extractSome demoExtraction }

/-- A priority-1 extractor that always delivers `weakExtraction`. -/
def weakExtractor : TextExtractor Unit :=
  { name := "semantic", priority := 1,
    run := fun _ => .extractSome weakExtraction }

/-- A priority-3 extractor whose `canHandle` always throws. -/
def throwingExtractor : TextExtractor Unit :=
  { name := "raw-fallback", priority := 3,
    run := fun _ => .throwCanHandle }

/-- Witness for C1 at a concrete input: with the sorted pair
`[passingExtractor, weakExtractor]` and the default threshold, the
priority-0 extraction is returned and no invoked extractor has
priority above 0. -/
theorem pipeline_strategy_precedence_witness :
    (ExtractionPipeline.extractText [passingExtractor, weakExtractor]
        none () [] none).result = some demoExtraction ∧
      (∀ y : TextExtractor Unit,
        (y ∈ (ExtractionPipeline.extractText
            [passingExtractor, weakExtractor] none () []
            none).canHandleCalled ∨
          y ∈ (ExtractionPipeline.extractText
            [passingExtractor, weakExtractor] none () []
            none).extractCalled) →
        ¬ passingExtractor.priority < y.priority) := by
  refine pipeline_strategy_precedence [passingExtractor, weakExtractor]
    none () [] none ?_ [] passingExtractor [weakExtractor] rfl ?_
    demoExtraction rfl ?_
  · refine List.Pairwise.cons ?_ (List.Pairwise.cons ?_ List.Pairwise.nil)
    · intro y hy
      simp only [List.mem_cons, List.not_mem_nil, or_false] at hy
      rw [hy]
      decide
    · intro y hy
      exact absurd hy (List.not_mem_nil y)
  · intro y hy
    exact absurd hy (List.not_mem_nil y)
  · show (0.5 : ℚ) ≤ demoExtraction.confidence
    rw [demoExtraction]
    norm_num

lemma extractTextGo_no_meet {Node : Type} (threshold : ℚ) (node : Node) :
    ∀ (l : List (TextExtractor Node)) (attempted : List String)
      (used : Option String) (chc exc : List (TextExtractor Node))
      (best : Option ExtractedText),
      (∀ y ∈ l, meetsThreshold threshold node y = false) →
      (extractTextGo threshold node l attempted used chc exc best).result =
          List.foldl bestUpdate best (l.filterMap (produces node)) ∧
        (extractTextGo threshold node l attempted used chc exc best).used =
          (match List.foldl bestUpdate best (l.filterMap (produces node)) with
            | some _ => some (used.getD "low-confidence-fallback")
            | none => used)
  | [], attempted, used, chc, exc, best, _ => by
      simp only [extractTextGo, List.filterMap_nil, List.foldl_nil]
      cases best with
      | some b => exact ⟨rfl, rfl⟩
      | none => exact ⟨rfl, rfl⟩
  | z :: l, attempted, used, chc, exc, best, hall => by
      have hz : meetsThreshold threshold node z = false :=
        hall z (List.mem_cons_self z l)
      have hall1 : ∀ y ∈ l, meetsThreshold threshold node y = false :=
        fun y hy => hall y (List.mem_cons_of_mem z hy)
      rw [extractTextGo, List.filterMap_cons]
      cases hr : z.run node with
      | throwCanHandle =>
          have hp : produces node z = none := by simp only [produces, hr]
          rw [hp]
          exact extractTextGo_no_meet threshold node l
            (addAttempt attempted z.name) used (chc ++ [z]) exc best hall1
      | cannotHandle =>
          have hp : produces node z = none := by simp only [produces, hr]
          rw [hp]
          exact extractTextGo_no_meet threshold node l
            (addAttempt attempted z.name) used (chc ++ [z]) exc best hall1
      | throwExtract =>
          have hp : produces node z = none := by simp only [produces, hr]
          rw [hp]
          exact extractTextGo_no_meet threshold node l
            (addAttempt attempted z.name) used (chc ++ [z]) (exc ++ [z])
            best hall1
      | extractNone =>
          have hp : produces node z = none := by simp only [produces, hr]
          rw [hp]
          exact extractTextGo_no_meet threshold node l
            (addAttempt attempted z.name) used (chc ++ [z]) (exc ++ [z])
            best hall1
      | extractSome e2 =>
          by_cases ht : e2.texts = []
          · have hp : produces node z = none := by
              simp only [produces, hr]
              rw [if_pos ht]
            rw [hp]
            simp only [if_pos ht]
            exact extractTextGo_no_meet threshold node l
              (addAttempt attempted z.name) used (chc ++ [z]) (exc ++ [z])
              best hall1
          · have hp : produces node z = some e2 := by
              simp only [produces, hr]
              rw [if_neg ht]
            have hlt : ¬ threshold ≤ e2.confidence := by
              intro hle
              rw [meetsThreshold, hp] at hz
              simp only [decide_eq_false_iff_not] at hz
              exact hz hle
            rw [hp]
            simp only [if_neg ht, if_neg hlt]
            rw [List.foldl_cons]
            exact extractTextGo_no_meet threshold node l
              (addAttempt attempted z.name) used (chc ++ [z]) (exc ++ [z])
              (bestUpdate best e2) hall1

lemma bestUpdate_none (e : ExtractedText) : bestUpdate none e = some e := rfl

lemma bestUpdate_some (b0 e : ExtractedText) :
    bestUpdate (some b0) e =
      (if b0.confidence < e.confidence then some e else some b0) := rfl

lemma bestUpdate_ne_none (best : Option ExtractedText) (e : ExtractedText) :
    bestUpdate best e ≠ none := by
  cases best with
  | none => rw [bestUpdate_none]; simp
  | some b =>
      rw [bestUpdate_some]
      split <;> simp

lemma foldl_bestUpdate_spec :
    ∀ (es : List ExtractedText) (b : Option ExtractedText),
      (List.foldl bestUpdate b es = none ↔ b = none ∧ es = []) ∧
        (∀ r, List.foldl bestUpdate b es = some r →
          (b = some r ∨ r ∈ es) ∧
            (∀ e ∈ es, e.confidence ≤ r.confidence) ∧
            (∀ c, b = some c → c.confidence ≤ r.confidence))
  | [], b => by
      rw [List.foldl_nil]
      refine ⟨by simp, ?_⟩
      intro r hr
      refine ⟨Or.inl hr, by simp, ?_⟩
      intro c hc
      rw [hr] at hc
      cases hc
      exact le_refl _
  | e :: es, b => by
      rw [List.foldl_cons]
      have ih := foldl_bestUpdate_spec es (bestUpdate b e)
      constructor
      · rw [ih.1]
        constructor
        · rintro ⟨h1, _⟩
          exact absurd h1 (bestUpdate_ne_none b e)
        · rintro ⟨_, h2⟩
          cases h2
      · intro r hr
        have spec := ih.2 r hr
        have hbe : ∀ c, bestUpdate b e = some c → c.confidence ≤ r.confidence :=
          spec.2.2
        have hhead : e.confidence ≤ r.confidence := by
          cases b with
          | none => exact hbe e rfl
          | some b0 =>
              by_cases hc : b0.confidence < e.confidence
              · exact hbe e (by rw [bestUpdate_some, if_pos hc])
              · have hb0 := hbe b0 (by rw [bestUpdate_some, if_neg hc])
                exact le_trans (not_lt.mp hc) hb0
      -- membership and previous-best bound
        refine ⟨?_, ?_, ?_⟩
        · rcases spec.1 with h1 | h1
          · cases b with
            | none =>
                rw [bestUpdate_none] at h1
                cases h1
                exact Or.inr (List.mem_cons_self _ _)
            | some b0 =>
                rw [bestUpdate_some] at h1
                by_cases hc : b0.confidence < e.confidence
                · rw [if_pos hc] at h1
                  cases h1
                  exact Or.inr (List.mem_cons_self _ _)
                · rw [if_neg hc] at h1
                  cases h1
                  exact Or.inl rfl
          · exact Or.inr (List.mem_cons_of_mem e h1)
        · intro e2 he2
          rcases List.mem_cons.mp he2 with he2 | he2
          · rw [he2]
            exact hhead
          · exact spec.2.1 e2 he2
        · intro c hc
          rw [hc] at hbe
          by_cases hlt : c.confidence < e.confidence
          · exact le_trans (le_of_lt hlt) hhead
          · exact hbe c (by rw [bestUpdate_some, if_neg hlt])

/-- C2: when no text extractor delivers an extraction meeting the
threshold for a candidate node but at least one delivers an
extraction with non-empty texts, `extractText` still returns an
extraction of maximal confidence among those delivered, and (when no
extractor had been recorded yet) labels the diagnostics with the
low-confidence-fallback marker rather than dropping the item. -/
theorem pipeline_fallback_completeness {Node : Type}
    (extractors : List (TextExtractor Node)) (thresholdOpt : Option ℚ)
    (node : Node) (attempted0 : List String) (used0 : Option String)
    (hall : ∀ y ∈ extractors,
      meetsThreshold (thresholdOpt.getD 0.5) node y = false)
    (x₀ : TextExtractor Node) (hx₀ : x₀ ∈ extractors)
    (e₀ : ExtractedText) (hprod₀ : produces node x₀ = some e₀) :
    ∃ b : ExtractedText,
      (ExtractionPipeline.extractText extractors thresholdOpt node
          attempted0 used0).result = some b ∧
        (∃ x ∈ extractors, produces node x = some b) ∧
        (∀ x ∈ extractors, ∀ e, produces node x = some e →
          e.confidence ≤ b.confidence) ∧
        (used0 = none →
          (ExtractionPipeline.extractText extractors thresholdOpt node
            attempted0 used0).used = some "low-confidence-fallback") := by
  have hcore := extractTextGo_no_meet (thresholdOpt.getD 0.5) node
    extractors attempted0 used0 [] [] none hall
  have hmem : e₀ ∈ extractors.filterMap (produces node) :=
    List.mem_filterMap.mpr ⟨x₀, hx₀, hprod₀⟩
  have hspec := foldl_bestUpdate_spec (extractors.filterMap (produces node))
    none
  cases hres : List.foldl bestUpdate none
      (extractors.filterMap (produces node)) with
  | none =>
      have := (hspec.1.mp hres).2
      rw [this] at hmem
      exact absurd hmem (List.not_mem_nil e₀)
  | some b =>
      have hb := hspec.2 b hres
      refine ⟨b, ?_, ?_, ?_, ?_⟩
      · rw [ExtractionPipeline.extractText, hcore.1, hres]
      · rcases hb.1 with h1 | h1
        · cases h1
        · exact List.mem_filterMap.mp h1
      · intro x hx e he
        exact hb.2.1 e (List.mem_filterMap.mpr ⟨x, hx, he⟩)
      · intro hu
        rw [ExtractionPipeline.extractText, hcore.2, hres, hu]
        rfl

/-- Witness for C2 at a concrete input: with only the weak (0.25
confidence) and throwing extractors under the default threshold, the
weak extraction is returned as a labelled low-confidence fallback. -/
theorem pipeline_fallback_completeness_witness :
    ∃ b : ExtractedText,
      (ExtractionPipeline.extractText [weakExtractor, throwingExtractor]
          none () [] none).result = some b ∧
        (∃ x ∈ [weakExtractor, throwingExtractor],
          produces () x = some b) ∧
        (∀ x ∈ [weakExtractor, throwingExtractor], ∀ e,
          produces () x = some e → e.confidence ≤ b.confidence) ∧
        ((none : Option String) = none →
          (ExtractionPipeline.extractText [weakExtractor, throwingExtractor]
            none () [] none).used = some "low-confidence-fallback") := by
  refine pipeline_fallback_completeness [weakExtractor, throwingExtractor]
    none () [] none ?_ weakExtractor (List.mem_cons_self _ _)
    weakExtraction rfl
  intro y hy
  rcases List.mem_cons.mp hy with hy | hy
  · subst hy
    rw [meetsThreshold]
    have hp : produces () weakExtractor = some weakExtraction := rfl
    rw [hp]
    simp only [decide_eq_false_iff_not]
    show ¬ ((none : Option ℚ).getD 0.5 ≤ weakExtraction.confidence)
    rw [weakExtraction]
    norm_num
  · rcases List.mem_cons.mp hy with hy | hy
    · subst hy
      rfl
    · exact absurd hy (List.not_mem_nil y)

lemma handleListGo_ok {Node T : Type} (cfg : PipelineConfig Node T)
    (hparse : ∀ i, ∃ v, cfg.parser.parse i = .ok v)
    (hval : ∀ t, ∃ b, cfg.parser.validate t = .ok b) :
    ∀ (nodes : List (Node × Ctx)) (diag : PipelineDiagnostics),
      ∃ out, ExtractionPipeline.handleListGo cfg nodes diag = .ok out
  | [], _ => ⟨_, rfl⟩
  | (node, context) :: rest, diag => by
      simp only [ExtractionPipeline.handleListGo]
      cases hres : (ExtractionPipeline.extractText cfg.textExtractors
          cfg.confidenceThreshold node diag.textExtractorsAttempted
          diag.textExtractorUsed).result with
      | none => exact handleListGo_ok cfg hparse hval rest _
      | some extracted =>
          obtain ⟨v, hv⟩ := hparse (mkParseInput extracted context)
          simp only [hv]
          cases v with
          | none => exact handleListGo_ok cfg hparse hval rest _
          | some item =>
              obtain ⟨b, hb⟩ := hval item
              simp only [hb]
              cases b with
              | false => exact handleListGo_ok cfg hparse hval rest _
              | true =>
                  obtain ⟨out, hout⟩ :=
                    handleListGo_ok cfg hparse hval rest _
                  rw [hout]
                  exact ⟨_, rfl⟩

lemma handleSingle_ok {Node T : Type} (cfg : PipelineConfig Node T)
    (hparse : ∀ i, ∃ v, cfg.parser.parse i = .ok v)
    (hval : ∀ t, ∃ b, cfg.parser.validate t = .ok b)
    (element : Node) (context : Ctx) (diag : PipelineDiagnostics) :
    ∃ out, ExtractionPipeline.handleSingle cfg element context diag =
      .ok out := by
  simp only [ExtractionPipeline.handleSingle]
  cases hres : (ExtractionPipeline.extractText cfg.textExtractors
      cfg.confidenceThreshold element diag.textExtractorsAttempted
      diag.textExtractorUsed).result with
  | none => exact ⟨_, rfl⟩
  | some extracted =>
      obtain ⟨v, hv⟩ := hparse
        { texts := extracted.texts, links := extracted.links,
          subItems := none, context := context }
      simp only [hv]
      cases v with
      | none => exact ⟨_, rfl⟩
      | some item =>
          obtain ⟨b, hb⟩ := hval item
          simp only [hb]
          cases b with
          | false => exact ⟨_, rfl⟩
          | true => exact ⟨_, rfl⟩

lemma handleRawGo_ok {Node T : Type} (cfg : PipelineConfig Node T)
    (hparse : ∀ i, ∃ v, cfg.parser.parse i = .ok v)
    (hval : ∀ t, ∃ b, cfg.parser.validate t = .ok b) :
    ∀ (data : List RawSection) (diag : PipelineDiagnostics),
      ∃ out, ExtractionPipeline.handleRawGo cfg data diag = .ok out
  | [], _ => ⟨_, rfl⟩
  | sec :: rest, diag => by
      simp only [ExtractionPipeline.handleRawGo]
      obtain ⟨v, hv⟩ := hparse
        { texts := [sec.heading, sec.text]
          links := (sec.anchors.filter (fun a => optTruthy a.href)).map
            (fun a => { url := a.href.getD "", text := a.text.getD "",
                        isExternal := true })
          subItems := none
          context := [("heading", sec.heading)] }
      simp only [hv]
      cases v with
      | none => exact handleRawGo_ok cfg hparse hval rest _
      | some item =>
          obtain ⟨b, hb⟩ := hval item
          simp only [hb]
          cases b with
          | false => exact handleRawGo_ok cfg hparse hval rest _
          | true =>
              obtain ⟨out, hout⟩ := handleRawGo_ok cfg hparse hval rest
                { diag with itemsParsed := diag.itemsParsed + 1 }
              rw [hout]
              exact ⟨_, rfl⟩

lemma handleRaw_ok {Node T : Type} (cfg : PipelineConfig Node T)
    (hparse : ∀ i, ∃ v, cfg.parser.parse i = .ok v)
    (hval : ∀ t, ∃ b, cfg.parser.validate t = .ok b)
    (hraw : ∀ f, cfg.parser.parseRaw = some f →
      ∀ d, ∃ items, f d = .ok items)
    (data : List RawSection) (diag : PipelineDiagnostics) :
    ∃ out, ExtractionPipeline.handleRaw cfg data diag = .ok out := by
  simp only [ExtractionPipeline.handleRaw]
  cases hpr : cfg.parser.parseRaw with
  | none => exact handleRawGo_ok cfg hparse hval data _
  | some f =>
      obtain ⟨items, hitems⟩ := hraw f hpr data
      simp only [hitems]
      exact ⟨_, rfl⟩

/-- C3 amended: the pipeline catches throws from every text
extractor's `canHandle`/`extract` (per extractor, inside
`extractText`) and the snippet capture cannot throw, so whenever the
page extractor returns normally and the parser's `parse`, `validate`
and `parseRaw` do not throw, `extract` returns a result for every
behaviour of the text extractors; but a throw from the page extractor
or from the parser's `parse`/`validate` propagates to the caller
(see the counterexample). -/
theorem pipeline_error_isolation {Node T : Type}
    (cfg : PipelineConfig Node T)
    (hpage : ∃ pr, cfg.pageExtract = .ok pr)
    (hparse : ∀ i, ∃ v, cfg.parser.parse i = .ok v)
    (hval : ∀ t, ∃ b, cfg.parser.validate t = .ok b)
    (hraw : ∀ f, cfg.parser.parseRaw = some f →
      ∀ d, ∃ items, f d = .ok items) :
    ∃ r, ExtractionPipeline.extract cfg = .ok r := by
  obtain ⟨pr, hpr⟩ := hpage
  rw [ExtractionPipeline.extract]
  simp only [hpr]
  have hkind : ∃ out, ExtractionPipeline.handleKind cfg pr = .ok out := by
    cases pr with
    | list items =>
        exact handleListGo_ok cfg hparse hval items _
    | single element context =>
        exact handleSingle_ok cfg hparse hval element context _
    | raw data =>
        simp only [ExtractionPipeline.handleKind]
        obtain ⟨out, hout⟩ := handleRaw_ok cfg hparse hval hraw data
          (initDiagnostics cfg.sectionName)
        rw [hout]
        exact ⟨_, rfl⟩
  obtain ⟨⟨items0, totalConfidence, diag1⟩, hout⟩ := hkind
  simp only [hout]
  exact ⟨_, rfl⟩

/-- A parser whose `parse` always throws. -/
def throwingParser : DomainParser Unit :=
  { parse := fun _ => .error ()
    validate := fun _ => .ok true
    parseRaw := none }

/-- A pipeline whose page extractor finds one candidate, whose single
text extractor succeeds with high confidence, and whose parser throws
on `parse`. -/
def throwingParseConfig : PipelineConfig Unit Unit :=
  { sectionName := "experience"
    pageExtract := .ok (.list [((), [])])
    textExtractors := [passingExtractor]
    parser := throwingParser
    confidenceThreshold := none
    deduplicateKey := none
    captureHtmlOnFailure := false
    mainHtml := "" }

/-- C3 counterexample: a throw from the parser's `parse` is not caught
anywhere in the pipeline, so `extract` propagates the exception to its
caller instead of returning an items-plus-diagnostics value. -/
theorem pipeline_throw_cex :
    ExtractionPipeline.extract throwingParseConfig = .error () := by
  have hconf : ((none : Option ℚ).getD 0.5) ≤ demoExtraction.confidence := by
    show (0.5 : ℚ) ≤ demoExtraction.confidence
    rw [demoExtraction]
    norm_num
  have h := @extractTextGo_first_pass Unit ((none : Option ℚ).getD 0.5) ()
    passingExtractor demoExtraction rfl hconf [] [] [] none [] [] none
    (fun y hy => absurd hy (List.not_mem_nil y))
  have hres : (ExtractionPipeline.extractText [passingExtractor] none ()
      [] none).result = some demoExtraction := by
    rw [ExtractionPipeline.extractText]
    simpa using h.1
  rw [ExtractionPipeline.extract]
  simp only [throwingParseConfig, ExtractionPipeline.handleKind,
    ExtractionPipeline.handleList, ExtractionPipeline.handleListGo,
    initDiagnostics, List.length_cons, List.length_nil, hres,
    throwingParser]

/-- A parser that never throws and accepts everything. -/
def acceptingParser : DomainParser Unit :=
  { parse := fun _ => .ok (some ())
    validate := fun _ => .ok true
    parseRaw := none }

/-- A pipeline whose collaborators never throw except the text
extractor, whose `canHandle` always throws. -/
def caughtThrowConfig : PipelineConfig Unit Unit :=
  { sectionName := "experience"
    pageExtract := .ok (.list [((), [])])
    textExtractors := [throwingExtractor]
    parser := acceptingParser
    confidenceThreshold := none
    deduplicateKey := none
    captureHtmlOnFailure := true
    mainHtml := "<main></main>" }

/-- Witness for the amended C3 at a concrete input: with a throwing
text extractor but a well-behaved page extractor and parser, the run
still returns a result. -/
theorem pipeline_error_isolation_witness :
    ∃ r, ExtractionPipeline.extract caughtThrowConfig = .ok r :=
  pipeline_error_isolation caughtThrowConfig ⟨_, rfl⟩
    (fun _ => ⟨some (), rfl⟩) (fun _ => ⟨true, rfl⟩)
    (fun _ hf => nomatch hf)

lemma handleListGo_counts {Node T : Type} (cfg : PipelineConfig Node T) :
    ∀ (nodes : List (Node × Ctx)) (diag : PipelineDiagnostics)
      (items : List T) (tc : ℚ) (d : PipelineDiagnostics),
      ExtractionPipeline.handleListGo cfg nodes diag = .ok (items, tc, d) →
      d.itemsParsed = diag.itemsParsed + items.length ∧
        d.itemsParsed + d.itemsFailed =
          diag.itemsParsed + diag.itemsFailed + nodes.length ∧
        d.itemsFound = diag.itemsFound
  | [], diag, items, tc, d, h => by
      simp only [ExtractionPipeline.handleListGo] at h
      cases h
      simp
  | (node, context) :: rest, diag, items, tc, d, h => by
      simp only [ExtractionPipeline.handleListGo] at h
      cases hres : (ExtractionPipeline.extractText cfg.textExtractors
          cfg.confidenceThreshold node diag.textExtractorsAttempted
          diag.textExtractorUsed).result with
      | none =>
          simp only [hres] at h
          have ih := handleListGo_counts cfg rest _ items tc d h
          dsimp only at ih
          refine ⟨ih.1, ?_, ih.2.2⟩
          have h2 := ih.2.1
          simp only [List.length_cons]
          omega
      | some extracted =>
          simp only [hres] at h
          cases hp : cfg.parser.parse (mkParseInput extracted context) with
          | error err =>
              simp only [hp] at h
              exact absurd h (by simp)
          | ok v =>
              simp only [hp] at h
              cases v with
              | none =>
                  have ih := handleListGo_counts cfg rest _ items tc d h
                  dsimp only at ih
                  refine ⟨ih.1, ?_, ih.2.2⟩
                  have h2 := ih.2.1
                  simp only [List.length_cons]
                  omega
              | some item =>
                  cases hb : cfg.parser.validate item with
                  | error err =>
                      simp only [hb] at h
                      exact absurd h (by simp)
                  | ok b =>
                      simp only [hb] at h
                      cases b with
                      | false =>
                          have ih := handleListGo_counts cfg rest _ items
                            tc d h
                          dsimp only at ih
                          refine ⟨ih.1, ?_, ih.2.2⟩
                          have h2 := ih.2.1
                          simp only [List.length_cons]
                          omega
                      | true =>
                          cases hrec : ExtractionPipeline.handleListGo cfg
                              rest { ({ diag with
                                textExtractorsAttempted :=
                                  (ExtractionPipeline.extractText
                                    cfg.textExtractors
                                    cfg.confidenceThreshold node
                                    diag.textExtractorsAttempted
                                    diag.textExtractorUsed).attempted
                                textExtractorUsed :=
                                  (ExtractionPipeline.extractText
                                    cfg.textExtractors
                                    cfg.confidenceThreshold node
                                    diag.textExtractorsAttempted
                                    diag.textExtractorUsed).used } :
                                PipelineDiagnostics) with
                              itemsParsed := diag.itemsParsed + 1 } with
                          | error err =>
                              simp only [hrec] at h
                              exact absurd h (by simp)
                          | ok out =>
                              obtain ⟨items2, tc2, d2⟩ := out
                              simp only [hrec] at h
                              cases h
                              have ih := handleListGo_counts cfg rest _
                                _ _ _ hrec
                              dsimp only at ih
                              refine ⟨?_, ?_, ih.2.2⟩
                              · have h1 := ih.1
                                simp only [List.length_cons]
                                omega
                              · have h2 := ih.2.1
                                simp only [List.length_cons]
                                omega

lemma handleSingle_counts {Node T : Type} (cfg : PipelineConfig Node T)
    (element : Node) (context : Ctx) (diag : PipelineDiagnostics)
    (hp0 : diag.itemsParsed = 0) (hf0 : diag.itemsFailed = 0)
    (items : List T) (tc : ℚ) (d : PipelineDiagnostics)
    (h : ExtractionPipeline.handleSingle cfg element context diag =
      .ok (items, tc, d)) :
    d.itemsParsed + d.itemsFailed = d.itemsFound ∧
      items.length ≤ d.itemsParsed := by
  simp only [ExtractionPipeline.handleSingle] at h
  cases hres : (ExtractionPipeline.extractText cfg.textExtractors
      cfg.confidenceThreshold element diag.textExtractorsAttempted
      diag.textExtractorUsed).result with
  | none =>
      simp only [hres] at h
      cases h
      dsimp only
      simp [hp0]
  | some extracted =>
      simp only [hres] at h
      cases hp : cfg.parser.parse
          { texts := extracted.texts, links := extracted.links,
            subItems := none, context := context } with
      | error err =>
          simp only [hp] at h
          exact absurd h (by simp)
      | ok v =>
          simp only [hp] at h
          cases v with
          | none =>
              cases h
              dsimp only
              simp [hp0]
          | some item =>
              cases hb : cfg.parser.validate item with
              | error err =>
                  simp only [hb] at h
                  exact absurd h (by simp)
              | ok b =>
                  simp only [hb] at h
                  cases b with
                  | false =>
                      cases h
                      dsimp only
                      simp [hp0]
                  | true =>
                      cases h
                      dsimp only
                      simp [hf0]

/-- Whether a page-extractor result is of the structured `list` or
`single` kind. -/
def PageResult.isStructured {Node : Type} : PageResult Node → Bool
  | .list _ => true
  | .single _ _ => true
  | .raw _ => false

lemma finishRun_spec {Node T : Type} (cfg : PipelineConfig Node T)
    (items0 : List T) (tc : ℚ) (diag1 : PipelineDiagnostics) :
    (ExtractionPipeline.finishRun cfg items0 tc
        diag1).diagnostics.itemsParsed = diag1.itemsParsed ∧
      (ExtractionPipeline.finishRun cfg items0 tc
        diag1).diagnostics.itemsFailed = diag1.itemsFailed ∧
      (ExtractionPipeline.finishRun cfg items0 tc
        diag1).diagnostics.itemsFound = diag1.itemsFound ∧
      (ExtractionPipeline.finishRun cfg items0 tc diag1).items.length ≤
        items0.length := by
  simp only [ExtractionPipeline.finishRun]
  cases hk : cfg.deduplicateKey with
  | none =>
      simp only [hk]
      split_ifs <;> exact ⟨rfl, rfl, rfl, le_refl _⟩
  | some key =>
      simp only [hk]
      split_ifs <;>
        exact ⟨rfl, rfl, rfl, deduplicateItems_length_le items0 key⟩

/-- C10: for every run whose page-extractor result is of kind `list`
or `single` and which returns, the diagnostics satisfy
itemsParsed + itemsFailed = itemsFound, and the number of returned
items is at most itemsParsed (deduplication can only remove items). -/
theorem pipeline_diagnostics_invariant {Node T : Type}
    (cfg : PipelineConfig Node T) (pr : PageResult Node)
    (hpr : cfg.pageExtract = .ok pr) (hkind : pr.isStructured = true)
    (r : PipelineResult T)
    (hrun : ExtractionPipeline.extract cfg = .ok r) :
    r.diagnostics.itemsParsed + r.diagnostics.itemsFailed =
        r.diagnostics.itemsFound ∧
      r.items.length ≤ r.diagnostics.itemsParsed := by
  rw [ExtractionPipeline.extract] at hrun
  simp only [hpr] at hrun
  cases hkd : ExtractionPipeline.handleKind cfg pr with
  | error err =>
      simp only [hkd] at hrun
      exact absurd hrun (by simp)
  | ok out =>
      obtain ⟨items0, tc, diag1⟩ := out
      simp only [hkd] at hrun
      have hr : r = ExtractionPipeline.finishRun cfg items0 tc diag1 := by
        cases hrun
        rfl
      subst hr
      have hfin := finishRun_spec cfg items0 tc diag1
      cases pr with
      | raw data =>
          simp [PageResult.isStructured] at hkind
      | list itemNodes =>
          rw [ExtractionPipeline.handleKind,
            ExtractionPipeline.handleList] at hkd
          have hc := handleListGo_counts cfg itemNodes _ items0 tc diag1 hkd
          simp only [initDiagnostics] at hc
          constructor
          · rw [hfin.1, hfin.2.1, hfin.2.2.1]
            omega
          · refine le_trans hfin.2.2.2 ?_
            rw [hfin.1]
            omega
      | single element context =>
          rw [ExtractionPipeline.handleKind] at hkd
          have hc := handleSingle_counts cfg element context
            (initDiagnostics cfg.sectionName) rfl rfl items0 tc diag1 hkd
          constructor
          · rw [hfin.1, hfin.2.1, hfin.2.2.1]
            exact hc.1
          · refine le_trans hfin.2.2.2 ?_
            rw [hfin.1]
            exact hc.2

/-- Like `caughtThrowConfig` but without snippet capture, for a fully
evaluated demonstration run. -/
def countsConfig : PipelineConfig Unit Unit :=
  { sectionName := "experience"
    pageExtract := .ok (.list [((), [])])
    textExtractors := [throwingExtractor]
    parser := acceptingParser
    confidenceThreshold := none
    deduplicateKey := none
    captureHtmlOnFailure := false
    mainHtml := "" }

/-- The concrete result of running `extract` on `countsConfig`: the
only extractor throws, so the single candidate fails. -/
def countsResult : PipelineResult Unit :=
  { items := []
    diagnostics :=
      { sectionName := "experience"
        textExtractorsAttempted := ["raw-fallback"]
        textExtractorUsed := none
        itemsFound := 1
        itemsParsed := 0
        itemsFailed := 1
        avgConfidence := 0
        durationMs := 0
        capturedHtml := none } }

/-- Witness for C10 at a concrete run: the run on `countsConfig`
returns, its diagnostics count the one candidate exactly once (as
failed), and no more items are returned than were parsed. -/
theorem pipeline_diagnostics_invariant_witness :
    ExtractionPipeline.extract countsConfig = .ok countsResult ∧
      (countsResult.diagnostics.itemsParsed +
          countsResult.diagnostics.itemsFailed =
          countsResult.diagnostics.itemsFound ∧
        countsResult.items.length ≤
          countsResult.diagnostics.itemsParsed) := by
  have hrun : ExtractionPipeline.extract countsConfig =
      .ok countsResult := rfl
  exact ⟨hrun, pipeline_diagnostics_invariant countsConfig
    (.list [((), [])]) rfl rfl countsResult hrun⟩
